import Mathlib

/-
Verification of the candidate ranking engine of the kanji-vocab-builder
repository. The core under scrutiny is `sort_and_limit_words` in
`src/jisho_anki_tool/card_processor.py`, together with the upstream
normalizer `search_words_containing_kanji` in
`src/jisho_anki_tool/jisho_api.py` that builds the candidate records.
Python strings are modelled as `List Char`; Python dictionaries produced
by the normalizer are modelled as structures whose fields are the keys
the code reads.
-/

namespace JishoAnki

/-- Character test from `is_kanji` in `src/jisho_anki_tool/jisho_api.py`:
the code point lies in the CJK Unified Ideographs block, between 0x4E00
and 0x9FFF. The Python guard `len(char) != 1` is implicit here because a
`Char` is always a single character. -/
def is_kanji (c : Char) : Bool :=
  decide (0x4E00 ≤ c.toNat) && decide (c.toNat ≤ 0x9FFF)

/-- One normalized word record, as the dictionary built per search result
by `search_words_containing_kanji` in `src/jisho_anki_tool/jisho_api.py`:
keys `word`, `reading`, `jlpt`, `definitions`, `other_kanji`, `meaning`.
The `jlpt` field is `none` when the Python value is `None`. A record
missing the optional keys `other_kanji` or `jlpt` behaves, through the
`dict.get` defaults in `sort_and_limit_words`, exactly like one holding
`[]` and `None`, so those keys are modelled as total fields. -/
structure Word where
  word : List Char
  reading : List Char
  jlpt : Option Int
  definitions : List (List Char)
  other_kanji : List Char
  meaning : List Char
  deriving Repr, DecidableEq

/-- The `other_kanji` list built by `search_words_containing_kanji` in
`src/jisho_anki_tool/jisho_api.py`: the characters of the word that
differ from the searched kanji and are kanji, kept in order. -/
def otherKanji (kanji : Char) (word : List Char) : List Char :=
  word.filter (fun c => decide (c ≠ kanji) && is_kanji c)

/-- One entry of the ranked output of `sort_and_limit_words`: the Python
expression `word | {"priority": priority}` builds a new dictionary that
holds every field of the input word plus the derived `priority` value
(1 or 0), leaving the input dictionary untouched. It is modelled as a
wrapper holding the unchanged input record and the new field. -/
structure RankedWord where
  toWord : Word
  priority : Nat
  deriving Repr, DecidableEq

/-- Priority computation of `sort_and_limit_words` in
`src/jisho_anki_tool/card_processor.py`: `other_kanji = word.get("other_kanji", [])`,
`all_reviewed = all(k in reviewed_kanji for k in other_kanji)`,
`priority = 1 if all_reviewed else 0`, and the annotated record
`word | {"priority": priority}`. -/
def rankWord (reviewed : Finset Char) (w : Word) : RankedWord :=
  let all_reviewed := w.other_kanji.all (fun k => decide (k ∈ reviewed))
  ⟨w, if all_reviewed then 1 else 0⟩

/-- The sort key `(x[1], x[2])` of `sort_and_limit_words`: the pair
`(priority, jlpt_rank)` where `jlpt_rank = jlpt_level if jlpt_level is not None else 0`. -/
def sortKey (r : RankedWord) : Nat × Int :=
  (r.priority, r.toWord.jlpt.getD 0)

/-- Lexicographic comparison of sort keys, the order Python uses to
compare the tuples `(priority, jlpt_rank)`. -/
def keyLe (a b : Nat × Int) : Prop :=
  a.1 < b.1 ∨ (a.1 = b.1 ∧ a.2 ≤ b.2)

instance : DecidableRel keyLe := fun a b => by
  unfold keyLe; infer_instance

/-- Placement relation of the stable descending sort
`sorted(word_rankings, key=lambda x: (x[1], x[2]), reverse=True)`:
`x` may be placed no later than `y` exactly when the key of `x` is
lexicographically at least the key of `y`. Python's `sorted` with
`reverse=True` is a stable descending sort: it orders by descending
key and keeps elements with equal keys in input order, which is what
insertion sort along this relation produces. -/
def descBefore (x y : RankedWord) : Prop :=
  keyLe (sortKey y) (sortKey x)

instance : DecidableRel descBefore := fun x y => by
  unfold descBefore; infer_instance

theorem keyLe_refl (a : Nat × Int) : keyLe a a := Or.inr ⟨rfl, le_refl _⟩

theorem keyLe_total (a b : Nat × Int) : keyLe a b ∨ keyLe b a := by
  rcases a with ⟨a1, a2⟩
  rcases b with ⟨b1, b2⟩
  unfold keyLe
  dsimp only
  omega

theorem keyLe_trans {a b c : Nat × Int} (hab : keyLe a b) (hbc : keyLe b c) :
    keyLe a c := by
  rcases a with ⟨a1, a2⟩
  rcases b with ⟨b1, b2⟩
  rcases c with ⟨c1, c2⟩
  unfold keyLe at *
  dsimp only at *
  omega

instance : IsTotal RankedWord descBefore :=
  ⟨fun a b => keyLe_total (sortKey b) (sortKey a)⟩

instance : IsTrans RankedWord descBefore :=
  ⟨fun _ _ _ h1 h2 => keyLe_trans h2 h1⟩

/-- The list `word_rankings` of `sort_and_limit_words` in
`src/jisho_anki_tool/card_processor.py`, projected to its first tuple
component (the other components are the functions `sortKey` of it): the
input list minus the entries whose `word` equals `original_kanji`
(`words = [word for word in words if word["word"] != original_kanji]`),
each annotated with its priority, in input order. The reviewed set,
which the Python function fetches from the flashcard collaborator via
`connect.get_reviewed_kanji()`, is passed as an explicit parameter. -/
def wordRankings (words : List Word) (original_kanji : Char) (reviewed : Finset Char) :
    List RankedWord :=
  (words.filter (fun w => decide (w.word ≠ [original_kanji]))).map (rankWord reviewed)

/-- The list `sorted_words` of `sort_and_limit_words`: the stable
descending sort of `word_rankings` by key `(priority, jlpt_rank)`,
before truncation. -/
def sortedWords (words : List Word) (original_kanji : Char) (reviewed : Finset Char) :
    List RankedWord :=
  (wordRankings words original_kanji reviewed).insertionSort descBefore

/-- The function `sort_and_limit_words` of
`src/jisho_anki_tool/card_processor.py`: early return `[]` on an empty
input (`if not words: return []`), else the sorted list truncated to the
first `limit` entries (`sorted_words[:limit]`). The Python parameter
`limit` is an `int` documented as "Maximum number of words to return"
(default 10), so it is modelled as a natural number, for which the slice
`[:limit]` is `List.take`. -/
def sortAndLimitWords (words : List Word) (original_kanji : Char) (reviewed : Finset Char)
    (limit : Nat) : List RankedWord :=
  if words.isEmpty then []
  else (sortedWords words original_kanji reviewed).take limit

/-- The early return on an empty input list coincides with truncating the
sorted empty list, so the function is the truncation of `sortedWords` on
every input. -/
theorem sortAndLimitWords_eq_take (words : List Word) (k : Char) (rev : Finset Char)
    (lim : Nat) :
    sortAndLimitWords words k rev lim = (sortedWords words k rev).take lim := by
  cases words with
  | nil => simp [sortAndLimitWords, sortedWords, wordRankings, List.insertionSort]
  | cons w ws => simp [sortAndLimitWords]

/-- Sorting neither adds nor removes entries: the length of `sorted_words`
is the length of the anchor-filtered input. -/
theorem length_sortedWords (words : List Word) (k : Char) (rev : Finset Char) :
    (sortedWords words k rev).length =
      (words.filter (fun w => decide (w.word ≠ [k]))).length := by
  simp [sortedWords, wordRankings, List.length_insertionSort]

/-- Unfolding membership in the ranked output: every output entry is the
annotation of some input word that survived the anchor filter. -/
theorem mem_sortAndLimitWords {r : RankedWord} {words : List Word} {k : Char}
    {rev : Finset Char} {lim : Nat} (h : r ∈ sortAndLimitWords words k rev lim) :
    ∃ w, w ∈ words ∧ w.word ≠ [k] ∧ r = rankWord rev w := by
  rw [sortAndLimitWords_eq_take] at h
  have h1 : r ∈ sortedWords words k rev := List.take_subset _ _ h
  rw [sortedWords, List.mem_insertionSort, wordRankings] at h1
  rcases List.mem_map.mp h1 with ⟨w, hw, rfl⟩
  rcases List.mem_filter.mp hw with ⟨hmem, hcond⟩
  exact ⟨w, hmem, by simpa using hcond, rfl⟩

/-- The placement relation of the sort, read back through `sortKey`:
priorities are non-increasing, and on equal priorities the effective
difficulty ranks are non-increasing. -/
theorem descBefore_imp {a b : RankedWord} (h : descBefore a b) :
    b.priority ≤ a.priority ∧
      (a.priority = b.priority → b.toWord.jlpt.getD 0 ≤ a.toWord.jlpt.getD 0) := by
  unfold descBefore keyLe sortKey at h
  dsimp only at h
  refine ⟨?_, ?_⟩ <;> omega

/-- C2: for every candidate list, anchor, reviewed set and limit, the
output of `sort_and_limit_words` is ordered with priority major and level
minor: along the output, priorities are non-increasing (so no priority-0
entry precedes a priority-1 entry), and any two entries of equal priority
are non-increasing by their effective difficulty rank `jlpt.getD 0`, under
which an absent level counts as 0 and therefore sorts after levels 1
through 5. -/
theorem C2_priority_major_level_minor (words : List Word) (anchor : Char)
    (reviewed : Finset Char) (lim : Nat) :
    (sortAndLimitWords words anchor reviewed lim).Pairwise
      (fun a b => b.priority ≤ a.priority ∧
        (a.priority = b.priority → b.toWord.jlpt.getD 0 ≤ a.toWord.jlpt.getD 0)) := by
  have hs : (sortedWords words anchor reviewed).Pairwise descBefore :=
    List.sorted_insertionSort descBefore _
  rw [sortAndLimitWords_eq_take]
  have ht : List.Sublist ((sortedWords words anchor reviewed).take lim)
      (sortedWords words anchor reviewed) := List.take_sublist _ _
  exact (hs.sublist ht).imp descBefore_imp

/-- C4: no candidate whose expression is exactly the anchor character
appears in the output of `sort_and_limit_words`, whatever its other
fields; and every input candidate whose expression differs from the
anchor (in particular every compound merely containing it) is kept by the
filter and reaches the sorted sequence. -/
theorem C4_anchor_exclusion (words : List Word) (anchor : Char) (reviewed : Finset Char)
    (lim : Nat) :
    (∀ r ∈ sortAndLimitWords words anchor reviewed lim, r.toWord.word ≠ [anchor]) ∧
    (∀ w ∈ words, w.word ≠ [anchor] →
      rankWord reviewed w ∈ sortedWords words anchor reviewed) := by
  constructor
  · intro r hr
    rcases mem_sortAndLimitWords hr with ⟨w, _, hw, rfl⟩
    simpa [rankWord] using hw
  · intro w hw hne
    rw [sortedWords, List.mem_insertionSort, wordRankings]
    exact List.mem_map_of_mem _ (List.mem_filter.mpr ⟨hw, by simpa using hne⟩)

/-- C5: the output of `sort_and_limit_words` is exactly the first `limit`
entries of the fully sorted, anchor-filtered sequence — an initial
prefix of it — and therefore has length at most `limit`. -/
theorem C5_truncation (words : List Word) (anchor : Char) (reviewed : Finset Char)
    (lim : Nat) :
    sortAndLimitWords words anchor reviewed lim = (sortedWords words anchor reviewed).take lim ∧
    List.IsPrefix (sortAndLimitWords words anchor reviewed lim)
      (sortedWords words anchor reviewed) ∧
    (sortAndLimitWords words anchor reviewed lim).length ≤ lim := by
  refine ⟨sortAndLimitWords_eq_take words anchor reviewed lim, ?_, ?_⟩
  · rw [sortAndLimitWords_eq_take]
    exact List.take_prefix _ _
  · rw [sortAndLimitWords_eq_take]
    exact List.length_take_le lim _

/-- C10: the output length of `sort_and_limit_words` is exactly the
minimum of the limit and the number of input candidates whose expression
differs from the anchor: truncation removes no more than necessary and
the anchor filter is the only source of shrinkage. -/
theorem C10_exact_length (words : List Word) (anchor : Char) (reviewed : Finset Char)
    (lim : Nat) :
    (sortAndLimitWords words anchor reviewed lim).length =
      min lim (words.filter (fun w => decide (w.word ≠ [anchor]))).length := by
  rw [sortAndLimitWords_eq_take, List.length_take, length_sortedWords]

/-- Inserting an element into a list traverses only elements with a
strictly greater key before settling, so the subsequence of entries
carrying any fixed key is extended at its front when the inserted key
matches and is untouched otherwise. -/
theorem filter_orderedInsert (a : RankedWord) (l : List RankedWord) (k : Nat × Int) :
    (List.orderedInsert descBefore a l).filter (fun r => decide (sortKey r = k)) =
      if sortKey a = k then a :: l.filter (fun r => decide (sortKey r = k))
      else l.filter (fun r => decide (sortKey r = k)) := by
  induction l with
  | nil =>
    by_cases ha : sortKey a = k <;>
      simp [List.orderedInsert, List.filter_cons, ha]
  | cons b l ih =>
    by_cases hab : descBefore a b
    · rw [List.orderedInsert, if_pos hab]
      by_cases ha : sortKey a = k <;>
        simp [List.filter_cons, ha]
    · rw [List.orderedInsert, if_neg hab]
      by_cases ha : sortKey a = k
      · have hb : ¬ sortKey b = k := by
          intro hbk
          exact hab (show keyLe (sortKey b) (sortKey a) by rw [hbk, ha]; exact keyLe_refl k)
        simp [List.filter_cons, ha, hb, ih]
      · by_cases hb : sortKey b = k <;>
          simp [List.filter_cons, ha, hb, ih]

/-- Stability of the sort: the subsequence of entries carrying any fixed
sort key is exactly the same, in the same order, before and after
sorting. -/
theorem filter_insertionSort (l : List RankedWord) (k : Nat × Int) :
    (l.insertionSort descBefore).filter (fun r => decide (sortKey r = k)) =
      l.filter (fun r => decide (sortKey r = k)) := by
  induction l with
  | nil => rfl
  | cons a l ih =>
    rw [List.insertionSort, filter_orderedInsert]
    by_cases ha : sortKey a = k <;>
      simp [List.filter_cons, ha, ih]

/-- C3: the ranking sort is stable. For every sort key (a priority paired
with an effective difficulty rank), the entries of `sorted_words` that
carry that key are exactly, and in the same order as, the entries of the
anchor-filtered annotated input `word_rankings` that carry it, so the
dictionary-provided relevance order is the tertiary tie-break; after
truncation the output entries with that key are an initial prefix of
them. Two candidates with identical priority and identical level carry
the same key, so they appear in the output in their filtered-input
order. -/
theorem C3_stable_sort (words : List Word) (anchor : Char) (reviewed : Finset Char)
    (k : Nat × Int) :
    (sortedWords words anchor reviewed).filter (fun r => decide (sortKey r = k)) =
      (wordRankings words anchor reviewed).filter (fun r => decide (sortKey r = k)) ∧
    ∀ lim, List.IsPrefix
      ((sortAndLimitWords words anchor reviewed lim).filter (fun r => decide (sortKey r = k)))
      ((wordRankings words anchor reviewed).filter (fun r => decide (sortKey r = k))) := by
  constructor
  · exact filter_insertionSort _ k
  · intro lim
    rw [sortAndLimitWords_eq_take]
    have hpre : List.IsPrefix ((sortedWords words anchor reviewed).take lim)
        (sortedWords words anchor reviewed) := List.take_prefix _ _
    have h2 := hpre.filter (fun r => decide (sortKey r = k))
    simp only [sortedWords] at h2
    rw [filter_insertionSort] at h2
    exact h2

/-- The derived priority is 1 exactly when every character of the
record's `other_kanji` list belongs to the reviewed set. -/
theorem rankWord_priority_eq_one (reviewed : Finset Char) (w : Word) :
    (rankWord reviewed w).priority = 1 ↔ ∀ c ∈ w.other_kanji, c ∈ reviewed := by
  unfold rankWord
  dsimp only
  by_cases h : w.other_kanji.all (fun k => decide (k ∈ reviewed)) = true
  · rw [if_pos h]
    simp only [List.all_eq_true, decide_eq_true_eq] at h
    simpa using h
  · rw [if_neg h]
    simp only [List.all_eq_true, decide_eq_true_eq] at h
    simpa using h

/-- Membership in the upstream `other_kanji` list: a character of the
word that differs from the searched kanji and is a kanji. -/
theorem mem_otherKanji {c anchor : Char} {word : List Char} :
    c ∈ otherKanji anchor word ↔ c ∈ word ∧ c ≠ anchor ∧ is_kanji c = true := by
  simp [otherKanji, List.mem_filter, decide_eq_true_eq, and_assoc]

/-- C1: when every candidate carries the `other_kanji` field the upstream
normalizer builds for the anchor (the kanji characters of the word that
differ from the anchor), every entry of the output of
`sort_and_limit_words` has priority 1 exactly when every kanji character
of its expression other than the anchor belongs to the reviewed set
(vacuously so when there is no such character). -/
theorem C1_priority_correct (words : List Word) (anchor : Char) (reviewed : Finset Char)
    (lim : Nat) (hup : ∀ w ∈ words, w.other_kanji = otherKanji anchor w.word) :
    ∀ r ∈ sortAndLimitWords words anchor reviewed lim,
      (r.priority = 1 ↔
        ∀ c ∈ r.toWord.word, is_kanji c = true → c ≠ anchor → c ∈ reviewed) := by
  intro r hr
  rcases mem_sortAndLimitWords hr with ⟨w, hwmem, _, rfl⟩
  rw [rankWord_priority_eq_one, hup w hwmem]
  show (∀ c ∈ otherKanji anchor w.word, c ∈ reviewed) ↔
    ∀ c ∈ w.word, is_kanji c = true → c ≠ anchor → c ∈ reviewed
  constructor
  · intro h c hc hk hne
    exact h c (mem_otherKanji.mpr ⟨hc, hne, hk⟩)
  · intro h c hc
    rcases mem_otherKanji.mp hc with ⟨hcw, hne, hk⟩
    exact h c hcw hk hne

/-- A sample candidate: the word 学校, whose only kanji other than 学 is
校, with difficulty level 5, carrying the `other_kanji` list the
normalizer builds for anchor 学. -/
def gakkou : Word := ⟨['学', '校'], [], some 5, [], ['校'], []⟩

/-- C1 witness: for the single candidate 学校 under anchor 学 and
reviewed set {校}, the output entry has priority 1 and indeed every
kanji of 学校 other than 学 lies in {校}. -/
theorem C1_witness :
    (rankWord ({'校'} : Finset Char) gakkou).priority = 1 ↔
      ∀ c ∈ (rankWord ({'校'} : Finset Char) gakkou).toWord.word,
        is_kanji c = true → c ≠ '学' → c ∈ ({'校'} : Finset Char) :=
  C1_priority_correct [gakkou] '学' {'校'} 10 (by decide)
    (rankWord ({'校'} : Finset Char) gakkou) (by decide)

/-- C9: the ranking is free of mutation observable in the result: the
underlying word record of every output entry is an element of the input
list, held with exactly the fields and values it had there; the derived
priority lives only in the newly built wrapper (Python builds it with
`word | {"priority": priority}`, a fresh dictionary). -/
theorem C9_no_input_mutation (words : List Word) (anchor : Char) (reviewed : Finset Char)
    (lim : Nat) :
    ∀ r ∈ sortAndLimitWords words anchor reviewed lim, r.toWord ∈ words := by
  intro r hr
  rcases mem_sortAndLimitWords hr with ⟨w, hwmem, _, rfl⟩
  exact hwmem

/-- C9 witness: for the single candidate 学校, the output entry's
underlying record is the input record itself. -/
theorem C9_witness : (rankWord ({'校'} : Finset Char) gakkou).toWord ∈ [gakkou] :=
  C9_no_input_mutation [gakkou] '学' {'校'} 10
    (rankWord ({'校'} : Finset Char) gakkou) (by decide)

/-- A candidate whose expression 学学 consists of two atomic units, both
equal to the anchor 学; its upstream `other_kanji` list is therefore
empty. -/
def gakuGaku : Word := ⟨['学', '学'], [], none, [], [], []⟩

/-- C7 counterexample: under anchor 学 and an empty reviewed set, the
candidate 学学 — a multi-unit expression, two of its characters being
atomic units — carries the upstream-built empty `other_kanji` and comes
out of `sort_and_limit_words` with priority 1, not the priority 0 the
claim demands of every multi-unit candidate. -/
theorem C7_counterexample :
    gakuGaku.other_kanji = otherKanji '学' gakuGaku.word ∧
    gakuGaku.word.countP (fun c => is_kanji c) = 2 ∧
    (sortAndLimitWords [gakuGaku] '学' (∅ : Finset Char) 10).map RankedWord.priority
      = [1] := by
  decide

/-- C7 amended: when the reviewed set is empty, every output entry whose
expression contains at least one atomic kanji unit other than the anchor
(equivalently, whose upstream `other_kanji` list is non-empty) receives
priority 0; entries all of whose atomic units equal the anchor are
vacuously prioritized. -/
theorem C7_empty_reviewed_amended (words : List Word) (anchor : Char) (lim : Nat)
    (hup : ∀ w ∈ words, w.other_kanji = otherKanji anchor w.word) :
    ∀ r ∈ sortAndLimitWords words anchor (∅ : Finset Char) lim,
      (∃ c ∈ r.toWord.word, c ≠ anchor ∧ is_kanji c = true) → r.priority = 0 := by
  intro r hr hex
  rcases hex with ⟨c, hc, hne, hk⟩
  rcases mem_sortAndLimitWords hr with ⟨w, hwmem, _, rfl⟩
  have hmem : c ∈ w.other_kanji := by
    rw [hup w hwmem]
    exact mem_otherKanji.mpr ⟨hc, hne, hk⟩
  have hfalse : ¬ (w.other_kanji.all (fun k => decide (k ∈ (∅ : Finset Char))) = true) := by
    rw [List.all_eq_true]
    intro h
    have h2 := h c hmem
    simp at h2
  show (if w.other_kanji.all (fun k => decide (k ∈ (∅ : Finset Char))) then 1 else 0 : Nat) = 0
  rw [if_neg hfalse]

/-- C7 witness: with anchor 学, an empty reviewed set and the candidate
学校 (which contains the non-anchor kanji 校), the output entry has
priority 0. -/
theorem C7_witness : (rankWord (∅ : Finset Char) gakkou).priority = 0 :=
  C7_empty_reviewed_amended [gakkou] '学' 10 (by decide)
    (rankWord (∅ : Finset Char) gakkou) (by decide)
    ⟨'校', by decide, by decide, by decide⟩

/-- A raw candidate dictionary as `sort_and_limit_words` receives it,
with the fallibility of the one raising dictionary access in the
function, the subscript `word["word"]`, made explicit: the `word` key
may be absent (`none`), and the subscript then raises `KeyError`. The
keys `other_kanji` and `jlpt` are read through `dict.get` with defaults
and are total. -/
structure WordDict where
  wordKey : Option (List Char)
  reading : List Char
  jlpt : Option Int
  definitions : List (List Char)
  other_kanji : List Char
  meaning : List Char
  deriving Repr, DecidableEq

/-- The list comprehension
`words = [word for word in words if word["word"] != original_kanji]`
of `sort_and_limit_words`, with the subscript's fallibility explicit:
evaluation raises (`none`) as soon as a record lacks the `word` key. -/
def filterWordsE (original_kanji : Char) : List WordDict → Option (List WordDict)
  | [] => some []
  | w :: ws =>
    match w.wordKey with
    | none => none
    | some s =>
      match filterWordsE original_kanji ws with
      | none => none
      | some rest => some (if s ≠ [original_kanji] then w :: rest else rest)

/-- The priority computation of `sort_and_limit_words` on a raw
dictionary: every access it makes (`word.get("other_kanji", [])` and the
membership tests) is total. -/
def prioD (reviewed : Finset Char) (w : WordDict) : Nat :=
  if w.other_kanji.all (fun k => decide (k ∈ reviewed)) then 1 else 0

/-- The sort key `(priority, jlpt_rank)` of an annotated raw
dictionary. -/
def sortKeyD (p : WordDict × Nat) : Nat × Int :=
  (p.2, p.1.jlpt.getD 0)

/-- The placement relation of the stable descending sort on annotated
raw dictionaries. -/
def descBeforeD (x y : WordDict × Nat) : Prop :=
  keyLe (sortKeyD y) (sortKeyD x)

instance : DecidableRel descBeforeD := fun x y => by
  unfold descBeforeD; infer_instance

/-- The whole of `sort_and_limit_words` over raw dictionaries, with the
raising access explicit: `some` is a normal return, `none` a raised
exception. Everything after the filtering comprehension — priority
computation, sorting, truncation — is built from total operations. -/
def sortAndLimitWordsE (words : List WordDict) (original_kanji : Char)
    (reviewed : Finset Char) (limit : Nat) : Option (List (WordDict × Nat)) :=
  if words.isEmpty then some []
  else
    match filterWordsE original_kanji words with
    | none => none
    | some filtered =>
      some (((filtered.map (fun w => (w, prioD reviewed w))).insertionSort
        descBeforeD).take limit)

/-- Filtering raises on no input whose records all carry the `word`
key. -/
theorem filterWordsE_isSome {k : Char} {ws : List WordDict}
    (h : ∀ w ∈ ws, w.wordKey.isSome = true) : (filterWordsE k ws).isSome = true := by
  induction ws with
  | nil => rfl
  | cons w ws ih =>
    have hw := h w (List.mem_cons_self w ws)
    rcases Option.isSome_iff_exists.mp hw with ⟨s, hs⟩
    have hrest := ih (fun x hx => h x (List.mem_cons_of_mem w hx))
    rcases Option.isSome_iff_exists.mp hrest with ⟨rest, hr⟩
    rw [filterWordsE, hs, hr]
    rfl

/-- C6: `sort_and_limit_words` applied to an empty candidate list
returns the empty list without raising; and on every input whose records
carry the `word` key — the documented well-formedness precondition, and
the only access in the function that can raise — it returns normally,
whatever the reviewed set, in particular when it is empty. -/
theorem C6_empty_safe_no_throw (anchor : Char) (reviewed : Finset Char) (lim : Nat)
    (words : List WordDict) (hwf : ∀ w ∈ words, w.wordKey.isSome = true) :
    sortAndLimitWordsE [] anchor reviewed lim = some [] ∧
    (sortAndLimitWordsE words anchor reviewed lim).isSome = true ∧
    (sortAndLimitWordsE words anchor (∅ : Finset Char) lim).isSome = true := by
  refine ⟨rfl, ?_, ?_⟩ <;>
  · rw [sortAndLimitWordsE]
    by_cases he : words.isEmpty
    · rw [if_pos he]; rfl
    · rw [if_neg he]
      rcases Option.isSome_iff_exists.mp (filterWordsE_isSome hwf) with ⟨filtered, hf⟩
      rw [hf]
      rfl

/-- A well-formed raw dictionary for the word 学校. -/
def wGakkouD : WordDict := ⟨some ['学', '校'], [], some 5, [], ['校'], []⟩

/-- C6 witness: the empty input returns the empty list, and the
well-formed singleton input 学校 returns normally, with the reviewed set
{校} and with the empty reviewed set. -/
theorem C6_witness :
    sortAndLimitWordsE [] '学' ({'校'} : Finset Char) 10 = some [] ∧
    (sortAndLimitWordsE [wGakkouD] '学' ({'校'} : Finset Char) 10).isSome = true ∧
    (sortAndLimitWordsE [wGakkouD] '学' (∅ : Finset Char) 10).isSome = true :=
  C6_empty_safe_no_throw '学' {'校'} 10 [wGakkouD] (by decide)

/-- One entry of the `japanese` array of a raw API result, as read by
`search_words_containing_kanji` in `src/jisho_anki_tool/jisho_api.py`:
the keys `word` and `reading` may each be absent. -/
structure JapaneseEntry where
  wordKey : Option (List Char)
  readingKey : Option (List Char)
  deriving Repr, DecidableEq

/-- One entry of the `senses` array: the key `english_definitions` may
be absent; when present it holds a list of strings. -/
structure Sense where
  english_definitions : Option (List (List Char))
  deriving Repr, DecidableEq

/-- One element of the `data` array of the API response. An absent
`japanese` key and an empty `japanese` array both skip the item
(`if "japanese" not in item or not item["japanese"]: continue`), so the
absent key is modelled as the empty list; `jlpt` is read through
`item.get("jlpt", [])`; the presence of `senses` is tested
(`"senses" in item`), so that key is an option. -/
structure ApiItem where
  japanese : List JapaneseEntry
  jlpt : List (List Char)
  senses : Option (List Sense)
  deriving Repr, DecidableEq

/-- Decimal value of a digit list, most significant first. -/
def digitsToNat (s : List Char) : Nat :=
  s.foldl (fun acc c => acc * 10 + (c.toNat - 48)) 0

/-- Python `int(s)` on the strings relevant here, returning `none` where
Python raises `ValueError`: an optional sign followed by at least one
digit parses, anything else fails. (Python also tolerates surrounding
whitespace and inner underscores; no claim depends on those forms.) -/
def pyToInt (s : List Char) : Option Int :=
  match s with
  | [] => none
  | '-' :: rest =>
    if rest ≠ [] ∧ rest.all Char.isDigit then some (-(digitsToNat rest : Int)) else none
  | '+' :: rest =>
    if rest ≠ [] ∧ rest.all Char.isDigit then some (digitsToNat rest : Int) else none
  | _ => if s.all Char.isDigit then some (digitsToNat s : Int) else none

/-- The characters "jlpt-n", the tag prefix the level extraction looks
for. -/
def jlptTagPrefixChars : List Char := ['j', 'l', 'p', 't', '-', 'n']

/-- The segment of `l` before the first occurrence of `sep`, so that for
a string starting with `sep`, Python's `split(sep)[1]` is this function
applied to the remainder after the prefix. -/
def takeUntilSeq (sep : List Char) : List Char → List Char
  | [] => []
  | c :: cs => if sep.isPrefixOf (c :: cs) then [] else c :: takeUntilSeq sep cs

/-- The JLPT extraction loop of `search_words_containing_kanji`
(`src/jisho_anki_tool/jisho_api.py`): starting from `None`, scan the
tags; for the first tag that starts with "jlpt-n" and whose
`split("jlpt-n")[1]` parses as an integer, keep that integer and stop;
tags that fail to parse are passed over. An empty tag list leaves
`None`. -/
def parseJlptTags : List (List Char) → Option Int
  | [] => none
  | t :: ts =>
    if jlptTagPrefixChars.isPrefixOf t then
      match pyToInt (takeUntilSeq jlptTagPrefixChars (t.drop jlptTagPrefixChars.length)) with
      | some n => some n
      | none => parseJlptTags ts
    else parseJlptTags ts

/-- The definitions extraction of `search_words_containing_kanji`: when
the `senses` key is present, for each of the first three senses that
carry `english_definitions`, join them with "; " and keep the result if
it is a non-empty string. -/
def extractDefinitions (senses : Option (List Sense)) : List (List Char) :=
  match senses with
  | none => []
  | some ss =>
    (ss.take 3).filterMap (fun s =>
      match s.english_definitions with
      | none => none
      | some ds =>
        let d := List.intercalate [';', ' '] ds
        if d = [] then none else some d)

/-- Processing of one element of the `data` array by
`search_words_containing_kanji`: skip when the `japanese` array is
empty; read `word` with the `reading` fallback and `reading` with an
empty default from the first entry; skip when the searched kanji does
not occur in the word; otherwise build the result record with the
extracted JLPT level, definitions, other kanji, and the first definition
(or an empty string) as `meaning`. -/
def processItem (kanji : Char) (item : ApiItem) : Option Word :=
  match item.japanese with
  | [] => none
  | jd :: _ =>
    let word := jd.wordKey.getD (jd.readingKey.getD [])
    let reading := jd.readingKey.getD []
    if kanji ∈ word then
      let jlpt_level := parseJlptTags item.jlpt
      let definitions := extractDefinitions item.senses
      let other_kanji := otherKanji kanji word
      some ⟨word, reading, jlpt_level, definitions, other_kanji, definitions.headD []⟩
    else none

/-- The normalizer `search_words_containing_kanji` of
`src/jisho_anki_tool/jisho_api.py`, past the HTTP fetch: `none` models a
response without the `data` key (which returns `[]`), and each item of
the `data` array is processed in order, skipped items dropped. The
Python early return for an empty query string is not representable here
because the searched kanji is a single character. -/
def search_words_containing_kanji (kanji : Char) (data : Option (List ApiItem)) :
    List Word :=
  match data with
  | none => []
  | some items => items.filterMap (processItem kanji)

/-- Whatever `senses` holds, the extracted definitions are at most three
and none of them is the empty string. -/
theorem extractDefinitions_spec (s : Option (List Sense)) :
    (extractDefinitions s).length ≤ 3 ∧ ∀ d ∈ extractDefinitions s, d ≠ [] := by
  match s with
  | none => simp [extractDefinitions]
  | some ss =>
    constructor
    · calc (extractDefinitions (some ss)).length ≤ (ss.take 3).length :=
        List.length_filterMap_le _ _
      _ ≤ 3 := List.length_take_le 3 ss
    · intro d hd
      rw [extractDefinitions] at hd
      rcases List.mem_filterMap.mp hd with ⟨sen, _, hsen⟩
      match hs : sen.english_definitions with
      | none => rw [hs] at hsen; cases hsen
      | some ds =>
        rw [hs] at hsen
        dsimp at hsen
        by_cases hd0 : List.intercalate [';', ' '] ds = []
        · rw [if_pos hd0] at hsen; cases hsen
        · rw [if_neg hd0] at hsen
          cases hsen
          exact hd0

/-- The definitions of a produced candidate are exactly the definitions
extracted from the item's senses. -/
theorem processItem_definitions {kanji : Char} {item : ApiItem} {w : Word}
    (h : processItem kanji item = some w) :
    w.definitions = extractDefinitions item.senses := by
  unfold processItem at h
  match hj : item.japanese with
  | [] => rw [hj] at h; cases h
  | jd :: rest =>
    rw [hj] at h
    dsimp at h
    by_cases hk : kanji ∈ jd.wordKey.getD (jd.readingKey.getD [])
    · rw [if_pos hk] at h
      cases h
      rfl
    · rw [if_neg hk] at h; cases h

/-- An API item with a matching word but no `senses` key. -/
def itemNoSenses : ApiItem := ⟨[⟨some ['学', '校'], some []⟩], [], none⟩

/-- C8 counterexample: from a successful search result whose item lacks
senses, the normalizer constructs — and does not filter out — a
candidate whose `definitions` list is empty, against the claimed
invariant that every constructed candidate has a non-empty one. -/
theorem C8_counterexample :
    (search_words_containing_kanji '学' (some [itemNoSenses])).map Word.definitions
        = [[]] ∧
    (search_words_containing_kanji '学' (some [itemNoSenses])).length = 1 := by
  decide

/-- C8 amended: every candidate the normalizer produces has at most
three definitions and each of them is a non-empty string, but the
`definitions` list itself may be empty (when no sense provides a
non-empty joined definition) and such candidates are not filtered out
before ranking. -/
theorem C8_definitions_amended (kanji : Char) (data : Option (List ApiItem)) :
    ∀ w ∈ search_words_containing_kanji kanji data,
      w.definitions.length ≤ 3 ∧ ∀ d ∈ w.definitions, d ≠ [] := by
  intro w hw
  match data with
  | none => simp [search_words_containing_kanji] at hw
  | some items =>
    rw [search_words_containing_kanji] at hw
    rcases List.mem_filterMap.mp hw with ⟨item, _, hitem⟩
    rw [processItem_definitions hitem]
    exact extractDefinitions_spec item.senses

/-- An API item with a matching word and one sense holding one
definition. -/
def itemWithSense : ApiItem := ⟨[⟨some ['学', '校'], some []⟩], [], some [⟨some [['s']]⟩]⟩

/-- C8 witness: the candidate produced from a result with one
one-definition sense has one definition, which is non-empty. -/
theorem C8_witness :
    (⟨['学', '校'], [], none, [['s']], ['校'], ['s']⟩ : Word).definitions.length ≤ 3 ∧
    ∀ d ∈ (⟨['学', '校'], [], none, [['s']], ['校'], ['s']⟩ : Word).definitions, d ≠ [] :=
  C8_definitions_amended '学' (some [itemWithSense]) _ (by decide)

end JishoAnki
